import Mathlib

/-!
Shallow embedding of the sysdb/go client library: the Duration JSON codec
(`sysdb` package), the wire-message codec (`proto` package) and the client's
reply processing (`client` package), together with proofs of the spec's
claims about them.

Go integers are modelled as `Nat`/`Int`; on every code path exercised here the
Go values provably stay inside their machine ranges, so no wrap-around is
modelled.  A Go function that can hit a runtime fault (index or slice out of
range) is modelled with an explicit `GoResult.panics` outcome.
-/

namespace SysDBGo

/-- Outcome of a Go function that either returns a value, returns an error,
or hits a runtime fault (index/slice out of range). -/
inductive GoResult (α : Type) where
  | panics : GoResult α
  | err : String → GoResult α
  | ok : α → GoResult α
deriving DecidableEq, Repr

/-- Does the result carry a (returned) error? -/
def GoResult.isErr {α : Type} : GoResult α → Bool
  | .err _ => true
  | _ => false

/-! ## Duration constants (package sysdb)

`Second = Duration(1000000000)` and so on, as in the source. -/

def Second : Int := 1000000000

def Minute : Int := 60 * Second

def Hour : Int := 60 * Minute

def Day : Int := 24 * Hour

def Month : Int := 30436875 * 24 * 60 * 60 * 1000

def Year : Int := 3652425 * 24 * 60 * 60 * 100000

/-! ## Decimal rendering (Go `fmt.Sprintf("%d", n)` for a non-negative value) -/

/-- The character of a decimal digit. -/
def digitChar (n : Nat) : Char := Char.ofNat (48 + n)

/-- Fuelled digit renderer; the fuel only bounds the recursion depth. -/
def natDigitsGo : Nat → Nat → List Char → List Char
  | 0, _, acc => acc
  | fuel + 1, n, acc =>
    if n < 10 then digitChar n :: acc
    else natDigitsGo fuel (n / 10) (digitChar (n % 10) :: acc)

/-- The decimal rendering of `n`, most significant digit first (`"0"` for 0). -/
def natDigits (n : Nat) : List Char := natDigitsGo (n + 1) n []

/-- Go `fmt.Sprintf("%09d", n)`: the rendering left-padded with zeros to
9 characters (for the values reaching it, `n < 10^9`). -/
def pad9 (l : List Char) : List Char := List.replicate (9 - l.length) '0' ++ l

/-- The trailing-zero strip loop of `Duration.MarshalJSON`: drop `'0'`
characters from the end of the string built so far (which always starts with
the opening quote, so the loop never empties it). -/
def stripTrailingZeros (s : List Char) : List Char :=
  (s.reverse.dropWhile (fun c => c = '0')).reverse

/-! ## Duration.MarshalJSON -/

/-- The unit table of `Duration.MarshalJSON`, largest first; the whole-seconds
entry has no suffix. -/
def unitSpecs : List (Int × List Char) :=
  [(Year, ['Y']), (Month, ['M']), (Day, ['D']), (Hour, ['h']), (Minute, ['m']),
   (Second, [])]

/-- The greedy unit loop of `Duration.MarshalJSON`: for every unit whose
threshold is met, append `<count><suffix>` and keep the remainder; the `secs`
flag records that the whole-seconds entry fired. -/
def marshalLoop : List (Int × List Char) → Int → List Char → Bool →
    List Char × Int × Bool
  | [], d, s, secs => (s, d, secs)
  | (iv, suf) :: rest, d, s, secs =>
    if iv ≤ d then
      marshalLoop rest (d.tmod iv) (s ++ natDigits (d.tdiv iv).toNat ++ suf)
        (secs || (iv == Second))
    else
      marshalLoop rest d s secs

/-- `Duration.MarshalJSON`: the quoted SysDB textual form of a duration.
The Go method never returns an error. -/
def MarshalJSON (d : Int) : List Char :=
  if d = 0 then ['"', '0', 's', '"']
  else
    match marshalLoop unitSpecs d ['"'] false with
    | (s, rem, secs) =>
      let sf : List Char × Bool :=
        if 0 < rem then
          (stripTrailingZeros (s ++ '.' :: pad9 (natDigits rem.toNat)), true)
        else (s, secs)
      (if sf.2 then sf.1 ++ ['s'] else sf.1) ++ ['"']

/-! ## Duration.UnmarshalJSON -/

/-- Go's digit test `'0' <= c && c <= '9'`. -/
def isDig (c : Char) : Bool := decide ('0' ≤ c ∧ c ≤ '9')

/-- The numeric value of a digit character. -/
def digVal (c : Char) : Nat := c.toNat - '0'.toNat

/-- The value accumulated by the digit-consuming loop `dec = dec*10 + (c-'0')`. -/
def digitsVal (l : List Char) : Nat :=
  l.foldl (fun acc c => acc * 10 + digVal c) 0

/-- The fraction-consuming loop: it keeps accumulating digits while `m > 1`
(cutting off past nanosecond resolution) and divides `m` by 10 each time;
digits beyond the ninth are consumed but ignored.  Returns the accumulator and
the final multiplier. -/
def fracAcc : List Char → Nat → Nat → Nat × Nat
  | [], dec, m => (dec, m)
  | c :: cs, dec, m =>
    if 1 < m then fracAcc cs (dec * 10 + digVal c) (m / 10)
    else fracAcc cs dec m

/-- Go's unit-run test `data[u] != '.' && (data[u] < '0' || '9' < data[u])`. -/
def isUnitChar (c : Char) : Bool := decide (c ≠ '.') && ! isDig c

/-- The unit table `m` of `Duration.UnmarshalJSON`. -/
def unitMap (u : List Char) : Option Int :=
  if u = ['Y'] then some Year
  else if u = ['M'] then some Month
  else if u = ['D'] then some Day
  else if u = ['h'] then some Hour
  else if u = ['m'] then some Minute
  else if u = ['s'] then some Second
  else none

/-- The component loop of `Duration.UnmarshalJSON` over the quote-stripped
input.  Each iteration consumes a run of digits, an optional `.`-fraction, and
a run of unit characters, and accumulates `dec * unit` into the result.  The
fuel only bounds the recursion depth; every call supplies more fuel than the
list is long, and each iteration consumes at least one character, so the
`0`-fuel branch is unreachable. -/
def parseLoop (orig : List Char) : Nat → List Char → Int → GoResult Int
  | _, [], res => .ok res
  | 0, _, _ => .panics
  | fuel + 1, data, res =>
    let ds := data.takeWhile isDig
    let r1 := data.dropWhile isDig
    let st : Bool × Nat × List Char × Nat :=
      if r1.head? = some '.' then
        let fds := r1.tail.takeWhile isDig
        let dm := fracAcc fds (digitsVal ds) 1000000000
        (true, dm.1 * dm.2, r1.tail.dropWhile isDig, ds.length + 1 + fds.length)
      else (false, digitsVal ds, r1, ds.length)
    if st.2.2.1.isEmpty then
      .err ("missing unit in duration " ++ String.mk orig)
    else if st.2.2.2 = 0 then
      .err ("invalid duration " ++ String.mk orig)
    else
      let us := st.2.2.1.takeWhile isUnitChar
      let rest := st.2.2.1.dropWhile isUnitChar
      match unitMap us with
      | none => .err ("invalid unit in duration " ++ String.mk orig)
      | some dv =>
        if dv = Second then
          parseLoop orig fuel rest (res + (st.2.1 : Int) * (if st.1 then 1 else dv))
        else if st.1 then
          .err ("invalid fraction in duration " ++ String.mk orig)
        else
          parseLoop orig fuel rest (res + (st.2.1 : Int) * dv)

/-- `Duration.UnmarshalJSON`: check and strip the surrounding quotes, then run
the component loop.  The empty input and the single-character input `"` index
or slice out of range in Go, modelled as `panics`. -/
def UnmarshalJSON (data : List Char) : GoResult Int :=
  match data with
  | [] => .panics
  | c :: rest =>
    if c ≠ '"' ∨ (c :: rest).getLastD ' ' ≠ '"' then
      .err ("unquoted duration " ++ String.mk data)
    else if rest.length = 0 then .panics
    else
      let interior := rest.dropLast
      parseLoop interior (interior.length + 1) interior 0

/-! ## Wire message codec (package proto) -/

def ConnectionOK : Nat := 0

def ConnectionError : Nat := 1

def ConnectionLog : Nat := 2

def ConnectionData : Nat := 100

def ConnectionFetch : Nat := 4

def ConnectionList : Nat := 5

def ConnectionLookup : Nat := 6

def ConnectionTimeseries : Nat := 7

/-- A raw message of the SysDB front-end protocol: a status/command code
(a Go `uint32`) and the raw body bytes. -/
structure Message where
  type_ : Nat
  raw : List Nat
deriving DecidableEq, Repr

/-- `binary.BigEndian.PutUint32`: the four big-endian bytes of `v mod 2^32`. -/
def be32 (v : Nat) : List Nat :=
  [v / 2 ^ 24 % 256, v / 2 ^ 16 % 256, v / 2 ^ 8 % 256, v % 256]

/-- `binary.BigEndian.Uint32` of the first four bytes. -/
def fromBE32 (b : List Nat) : Nat :=
  b.getD 0 0 * 2 ^ 24 + b.getD 1 0 * 2 ^ 16 + b.getD 2 0 * 2 ^ 8 + b.getD 3 0

/-- `proto.Encode` (also `proto.Write`): 8-byte header (big-endian type, then
big-endian body length), followed by the raw body. -/
def Encode (m : Message) : List Nat :=
  be32 m.type_ ++ be32 m.raw.length ++ m.raw

/-- `proto.Decode` (also `proto.Read`) applied to the bytes available on the
transport: read exactly 8 header bytes, then exactly the declared number of
body bytes; fail if fewer are available. -/
def Decode (stream : List Nat) : GoResult Message :=
  if stream.length < 8 then .err "failed to read message header"
  else
    let typ := fromBE32 (stream.take 4)
    let l := fromBE32 ((stream.drop 4).take 4)
    if (stream.drop 8).length < l then .err "failed to read message body"
    else .ok ⟨typ, (stream.drop 8).take l⟩

/-- The payload shapes of a DATA message. -/
inductive DataKind where
  | HostList
  | Host
  | Timeseries
deriving DecidableEq, Repr

/-- `Message.DataType`: classify a DATA message by the status value in the
first four body bytes.  For a DATA message whose body is shorter than four
bytes, the Go expression `m.Raw[:4]` slices out of range. -/
def Message.dataType (m : Message) : GoResult DataKind :=
  if m.type_ ≠ ConnectionData then .err "message is not of type DATA"
  else if m.raw.length < 4 then .panics
  else
    let typ := fromBE32 (m.raw.take 4)
    if typ = ConnectionList ∨ typ = ConnectionLookup then .ok .HostList
    else if typ = ConnectionFetch then .ok .Host
    else if typ = ConnectionTimeseries then .ok .Timeseries
    else .err "unknown DATA type"

/-- What `proto.Unmarshal` does with a message: return an error, return `nil`
leaving the target at its zero value, or hand the body minus its 4-byte status
prefix to `json.Unmarshal` (an external collaborator, reified as data). -/
inductive UnmarshalOutcome where
  | err (msg : String)
  | okZero
  | jsonParse (payload : List Nat)
deriving DecidableEq, Repr

/-- `proto.Unmarshal`'s control flow on a message. -/
def Unmarshal (m : Message) : UnmarshalOutcome :=
  if m.type_ ≠ ConnectionData then .err "unmarshaling message of this type not supported"
  else if m.raw.length = 0 then .okZero
  else if m.raw.length < 4 then .err "DATA message body too short"
  else .jsonParse (m.raw.drop 4)

/-! ## Client reply processing (package client) -/

/-- `Client.ServerVersion`'s processing of the reply message (the transport
half of `Call` is factored out): check the type and body length, then
decompose the big-endian version integer with the source's subtractive
formulas, returning the bytes past the first four as the extra tag. -/
def serverVersionReply (res : Message) : GoResult (Int × Int × Int × List Nat) :=
  if res.type_ ≠ ConnectionOK then .err "SERVER_VERSION command failed"
  else if res.raw.length < 4 then .err "SERVER_VERSION reply is too short"
  else
    let version : Int := (fromBE32 (res.raw.take 4) : Nat)
    let major := version.tdiv 10000
    let minor := version.tdiv 100 - 100 * major
    let patch := version - 10000 * major - 100 * minor
    .ok (major, minor, patch, res.raw.drop 4)

/-- Result of `Client.Call`'s receive loop on a finite sequence of delivered
replies: the terminal reply (or server error, or transport exhaustion), the
log bodies diverted to the log sink in order, and the replies left
unconsumed. -/
inductive CallResult where
  | ok (res : Message) (logs : List (List Nat)) (unconsumed : List Message)
  | fail (msg : List Nat) (logs : List (List Nat)) (unconsumed : List Message)
  | transportErr (logs : List (List Nat))
deriving DecidableEq, Repr

/-- `Client.Call`'s receive loop: an ERROR reply fails the call, any other
non-LOG reply is returned, and a LOG reply has its body (past the 4-byte
status sub-header) forwarded to the log sink when it is longer than 4 bytes,
after which the loop continues.  Running out of replies models a transport
error from `Receive`. -/
def callLoop : List Message → List (List Nat) → CallResult
  | [], logs => .transportErr logs
  | r :: rest, logs =>
    if r.type_ = ConnectionError then .fail r.raw logs rest
    else if r.type_ ≠ ConnectionLog then .ok r logs rest
    else callLoop rest (logs ++ if 4 < r.raw.length then [r.raw.drop 4] else [])

/-- A quote-stripped duration input is a chain of `".s"` groups; these are
exactly the digit-free inputs the component loop accepts (each group parses as
a zero-second component). -/
def dotSChain : List Char → Bool
  | [] => true
  | c1 :: c2 :: rest => c1 == '.' && c2 == 's' && dotSChain rest
  | _ :: [] => false

/-- `<digits><unit-letter>` components as (count, unit character) pairs: the
shape emitted by the marshal loop for the Y/M/D/h/m units and consumed one
per iteration by the parse loop. -/
def flattenComps (cs : List (Nat × Char)) : List Char :=
  cs.foldr (fun kc acc => natDigits kc.1 ++ kc.2 :: acc) []

/-- The duration value a component list denotes. -/
def compsVal (cs : List (Nat × Char)) : Int :=
  cs.foldr (fun kc acc => (kc.1 : Int) * ((unitMap [kc.2]).getD 0) + acc) 0

/-! ## Lemmas -/

theorem fromBE32_be32 (v : Nat) (h : v < 2 ^ 32) : fromBE32 (be32 v) = v := by
  simp only [fromBE32, be32, List.getD_cons_zero, List.getD_cons_succ]
  omega

/-! ### take/drop-While over appends -/

theorem takeWhile_append_all {p : Char → Bool} {a : List Char} (b : List Char)
    (h : ∀ c ∈ a, p c = true) : (a ++ b).takeWhile p = a ++ b.takeWhile p := by
  induction a with
  | nil => simp
  | cons c cs ih =>
    have hc : p c = true := h c (by simp)
    simp only [List.cons_append, List.takeWhile_cons, hc, if_true]
    rw [ih fun x hx => h x (by simp [hx])]

theorem dropWhile_append_all {p : Char → Bool} {a : List Char} (b : List Char)
    (h : ∀ c ∈ a, p c = true) : (a ++ b).dropWhile p = b.dropWhile p := by
  induction a with
  | nil => simp
  | cons c cs ih =>
    have hc : p c = true := h c (by simp)
    simp only [List.cons_append, List.dropWhile_cons, hc, if_true]
    exact ih fun x hx => h x (by simp [hx])

theorem takeWhile_cons_false {p : Char → Bool} {c : Char} (l : List Char)
    (h : p c = false) : (c :: l).takeWhile p = [] := by
  simp [List.takeWhile_cons, h]

theorem dropWhile_cons_false {p : Char → Bool} {c : Char} (l : List Char)
    (h : p c = false) : (c :: l).dropWhile p = c :: l := by
  simp [List.dropWhile_cons, h]

theorem dropWhile_append_pos {p : Char → Bool} {u : List Char} (v : List Char)
    (h : ∃ x ∈ u, p x = false) : (u ++ v).dropWhile p = u.dropWhile p ++ v := by
  induction u with
  | nil => simp at h
  | cons c cs ih =>
    by_cases hc : p c
    · have hcs : ∃ x ∈ cs, p x = false := by
        rcases h with ⟨x, hx, hpx⟩
        rcases List.mem_cons.mp hx with rfl | hmem
        · rw [hc] at hpx; cases hpx
        · exact ⟨x, hmem, hpx⟩
      simp only [List.cons_append, List.dropWhile_cons, hc, if_true]
      exact ih hcs
    · simp only [List.cons_append, List.dropWhile_cons, hc]
      simp

/-- Dropping a prefix that satisfies nothing: if the takeWhile is empty the
dropWhile is the identity. -/
theorem dropWhile_of_takeWhile_nil {p : Char → Bool} {l : List Char}
    (h : l.takeWhile p = []) : l.dropWhile p = l := by
  cases l with
  | nil => rfl
  | cons c cs =>
    by_cases hc : p c
    · simp [List.takeWhile_cons, hc] at h
    · simp [List.dropWhile_cons, hc]

/-! ### Decimal digit characters -/

theorem isDig_digitChar {n : Nat} (h : n < 10) : isDig (digitChar n) = true := by
  interval_cases n <;> decide

theorem digVal_digitChar {n : Nat} (h : n < 10) : digVal (digitChar n) = n := by
  interval_cases n <;> decide

theorem natDigitsGo_spec : ∀ n fuel acc, n < fuel →
    natDigitsGo fuel n acc = natDigits n ++ acc := by
  intro n
  induction n using Nat.strong_induction_on with
  | _ n ih =>
    intro fuel acc h
    cases fuel with
    | zero => omega
    | succ f =>
      by_cases h10 : n < 10
      · simp [natDigitsGo, natDigits, h10]
      · have hpos : 0 < n := by omega
        have hdivlt : n / 10 < n := Nat.div_lt_self hpos (by omega)
        have l1 : natDigitsGo (f + 1) n acc =
            natDigitsGo f (n / 10) (digitChar (n % 10) :: acc) := by
          simp [natDigitsGo, h10]
        have l2 : natDigits n = natDigitsGo n (n / 10) [digitChar (n % 10)] := by
          simp [natDigits, natDigitsGo, h10]
        rw [l1, ih (n / 10) hdivlt f _ (by omega), l2,
          ih (n / 10) hdivlt n _ (by omega)]
        simp

/-- The recurrence satisfied by the decimal rendering. -/
theorem natDigits_rec (n : Nat) :
    natDigits n = if n < 10 then [digitChar n]
      else natDigits (n / 10) ++ [digitChar (n % 10)] := by
  by_cases h10 : n < 10
  · simp [natDigits, natDigitsGo, h10]
  · have hpos : 0 < n := by omega
    have hdivlt : n / 10 < n := Nat.div_lt_self hpos (by omega)
    rw [if_neg h10]
    have l2 : natDigits n = natDigitsGo n (n / 10) [digitChar (n % 10)] := by
      simp [natDigits, natDigitsGo, h10]
    rw [l2, natDigitsGo_spec (n / 10) n _ (by omega)]

theorem natDigits_ne_nil (n : Nat) : natDigits n ≠ [] := by
  rw [natDigits_rec]
  split_ifs <;> simp

theorem natDigits_digits (n : Nat) : ∀ c ∈ natDigits n, isDig c = true := by
  induction n using Nat.strong_induction_on with
  | _ n ih =>
    rw [natDigits_rec]
    by_cases h10 : n < 10
    · rw [if_pos h10]
      intro c hc
      rw [List.mem_singleton] at hc
      subst hc
      exact isDig_digitChar h10
    · rw [if_neg h10]
      intro c hc
      rcases List.mem_append.mp hc with hc | hc
      · exact ih (n / 10) (Nat.div_lt_self (by omega) (by omega)) c hc
      · rw [List.mem_singleton] at hc
        subst hc
        exact isDig_digitChar (Nat.mod_lt _ (by omega))

theorem digitsVal_foldl (l : List Char) : ∀ acc : Nat,
    l.foldl (fun a c => a * 10 + digVal c) acc = acc * 10 ^ l.length + digitsVal l := by
  induction l with
  | nil => intro acc; simp [digitsVal]
  | cons c cs ih =>
    intro acc
    show cs.foldl _ (acc * 10 + digVal c) = _
    rw [ih (acc * 10 + digVal c)]
    have hd : digitsVal (c :: cs) = digVal c * 10 ^ cs.length + digitsVal cs := by
      show cs.foldl _ (0 * 10 + digVal c) = _
      rw [ih (0 * 10 + digVal c)]
      ring
    rw [hd]
    simp [List.length_cons, Nat.pow_succ]
    ring

theorem digitsVal_append (a b : List Char) :
    digitsVal (a ++ b) = digitsVal a * 10 ^ b.length + digitsVal b := by
  unfold digitsVal
  rw [List.foldl_append, digitsVal_foldl]
  rfl

theorem digitsVal_natDigits (n : Nat) : digitsVal (natDigits n) = n := by
  induction n using Nat.strong_induction_on with
  | _ n ih =>
    rw [natDigits_rec]
    by_cases h10 : n < 10
    · rw [if_pos h10]
      show 0 * 10 + digVal (digitChar n) = n
      rw [digVal_digitChar h10]
      omega
    · rw [if_neg h10, digitsVal_append,
        ih (n / 10) (Nat.div_lt_self (by omega) (by omega))]
      show n / 10 * 10 ^ 1 + (0 * 10 + digVal (digitChar (n % 10))) = n
      rw [digVal_digitChar (Nat.mod_lt _ (by omega))]
      omega

theorem natDigits_length_le {n k : Nat} (hk : 1 ≤ k) (h : n < 10 ^ k) :
    (natDigits n).length ≤ k := by
  induction k generalizing n with
  | zero => omega
  | succ k ih =>
    by_cases h10 : n < 10
    · rw [natDigits_rec, if_pos h10]
      simp only [List.length_singleton]
      omega
    · have hk0 : 1 ≤ k := by
        by_contra hk0
        have : k = 0 := by omega
        subst this
        simp at h
        omega
      rw [natDigits_rec, if_neg h10]
      have hdiv : n / 10 < 10 ^ k := by
        have : n < 10 ^ k * 10 := by rw [← Nat.pow_succ]; exact h
        omega
      have := ih hk0 hdiv
      simp [List.length_append]
      omega

/-! ### Fraction accumulation, zero padding, trailing-zero stripping -/

theorem fracAcc_spec (F : List Char) : ∀ (dec e : Nat), F.length ≤ e →
    fracAcc F dec (10 ^ e) = (dec * 10 ^ F.length + digitsVal F, 10 ^ (e - F.length)) := by
  induction F with
  | nil => intro dec e _; simp [fracAcc, digitsVal]
  | cons c cs ih =>
    intro dec e hle
    have he : 1 ≤ e := by
      have : cs.length + 1 ≤ e := by simpa using hle
      omega
    have hm : 1 < 10 ^ e := by
      calc 1 < 10 ^ 1 := by omega
        _ ≤ 10 ^ e := Nat.pow_le_pow_right (by omega) he
    have hdivpow : 10 ^ e / 10 = 10 ^ (e - 1) := by
      cases e with
      | zero => omega
      | succ e' => rw [Nat.pow_succ, Nat.mul_div_cancel _ (by omega)]; simp
    have hstep : fracAcc (c :: cs) dec (10 ^ e) =
        fracAcc cs (dec * 10 + digVal c) (10 ^ (e - 1)) := by
      rw [fracAcc, if_pos hm, hdivpow]
    rw [hstep, ih (dec * 10 + digVal c) (e - 1) (by
      have : cs.length + 1 ≤ e := by simpa using hle
      omega)]
    have hd : digitsVal (c :: cs) = digVal c * 10 ^ cs.length + digitsVal cs := by
      show cs.foldl _ (0 * 10 + digVal c) = _
      rw [digitsVal_foldl]
      ring
    refine Prod.ext ?_ ?_
    · show (dec * 10 + digVal c) * 10 ^ cs.length + digitsVal cs =
        dec * 10 ^ (c :: cs).length + digitsVal (c :: cs)
      rw [hd, List.length_cons, Nat.pow_succ]
      ring
    · show 10 ^ (e - 1 - cs.length) = 10 ^ (e - (c :: cs).length)
      congr 1
      simp only [List.length_cons]
      omega

theorem digitsVal_replicate_zero (t : Nat) : digitsVal (List.replicate t '0') = 0 := by
  induction t with
  | zero => rfl
  | succ t ih =>
    rw [List.replicate_succ]
    show (List.replicate t '0').foldl _ (0 * 10 + digVal '0') = 0
    have h0 : digVal '0' = 0 := rfl
    rw [digitsVal_foldl, ih, h0]
    simp

theorem digitsVal_all_zero {l : List Char} (h : ∀ c ∈ l, c = '0') :
    digitsVal l = 0 := by
  rw [List.eq_replicate_of_mem h, digitsVal_replicate_zero]

/-- Splitting a digit string at its trailing zeros. -/
theorem strip_decomp (L : List Char) :
    ∃ t, L = stripTrailingZeros L ++ List.replicate t '0' ∧
      digitsVal L = digitsVal (stripTrailingZeros L) * 10 ^ t ∧
      (stripTrailingZeros L).length + t = L.length := by
  have hTzero : ∀ c ∈ L.reverse.takeWhile (fun c => decide (c = '0')), c = '0' := by
    intro c hc
    simpa using List.mem_takeWhile_imp hc
  have hTrep := List.eq_replicate_of_mem hTzero
  have key : L = stripTrailingZeros L ++
      List.replicate (L.reverse.takeWhile (fun c => decide (c = '0'))).length '0' := by
    have h1 : L.reverse.takeWhile (fun c => decide (c = '0')) ++
        L.reverse.dropWhile (fun c => decide (c = '0')) = L.reverse :=
      List.takeWhile_append_dropWhile _ _
    have h2 : L = (L.reverse.takeWhile (fun c => decide (c = '0')) ++
        L.reverse.dropWhile (fun c => decide (c = '0'))).reverse := by
      rw [h1, List.reverse_reverse]
    conv_lhs => rw [h2]
    rw [List.reverse_append]
    unfold stripTrailingZeros
    congr 1
    conv_lhs => rw [hTrep]
    rw [List.reverse_replicate]
  refine ⟨_, key, ?_, ?_⟩
  · conv_lhs => rw [key]
    rw [digitsVal_append, digitsVal_replicate_zero, List.length_replicate]
    omega
  · conv_rhs => rw [key]
    rw [List.length_append, List.length_replicate]

/-- Stripping trailing zeros from an appended block containing a non-zero
character never reaches into the prefix. -/
theorem strip_append {a : List Char} (L : List Char) (h : ∃ x ∈ L, ¬ x = '0') :
    stripTrailingZeros (a ++ L) = a ++ stripTrailingZeros L := by
  unfold stripTrailingZeros
  rw [List.reverse_append, dropWhile_append_pos a.reverse ?hx, List.reverse_append,
    List.reverse_reverse]
  case hx =>
    rcases h with ⟨x, hx, hne⟩
    exact ⟨x, by simpa using hx, by simpa using hne⟩

/-! ### The unit table -/

theorem unitMap_cases {u : List Char} {v : Int} (h : unitMap u = some v) :
    (u = ['Y'] ∧ v = Year) ∨ (u = ['M'] ∧ v = Month) ∨ (u = ['D'] ∧ v = Day) ∨
    (u = ['h'] ∧ v = Hour) ∨ (u = ['m'] ∧ v = Minute) ∨ (u = ['s'] ∧ v = Second) := by
  unfold unitMap at h
  split_ifs at h <;> simp_all

theorem unitMap_char_not_dig {uc : Char} {v : Int} (h : unitMap [uc] = some v) :
    isDig uc = false ∧ uc ≠ '.' ∧ isUnitChar uc = true := by
  rcases unitMap_cases h with ⟨h1, _⟩ | ⟨h1, _⟩ | ⟨h1, _⟩ | ⟨h1, _⟩ | ⟨h1, _⟩ | ⟨h1, _⟩ <;>
    rw [List.cons.injEq] at h1 <;> rw [h1.1] <;> exact ⟨by decide, by decide, by decide⟩


/-- C5: for every Message whose type and body length fit in 32 bits, the
encoded form is the 8-byte big-endian header followed by the raw body, and
decoding a transport holding exactly those bytes reconstructs the message. -/
theorem C5_message_roundtrip (m : Message) (ht : m.type_ < 2 ^ 32)
    (hl : m.raw.length < 2 ^ 32) :
    Encode m = be32 m.type_ ++ be32 m.raw.length ++ m.raw ∧
      Decode (Encode m) = .ok m := by
  refine ⟨rfl, ?_⟩
  obtain ⟨t, raw⟩ := m
  simp only at ht hl
  have hA : (be32 t).length = 4 := rfl
  have hB : (be32 raw.length).length = 4 := rfl
  have htake4 : (Encode ⟨t, raw⟩).take 4 = be32 t := by
    have h4 : (be32 t ++ (be32 raw.length ++ raw)).take 4 = be32 t :=
      List.take_left' hA
    simpa [Encode, List.append_assoc] using h4
  have hdrop4 : (Encode ⟨t, raw⟩).drop 4 = be32 raw.length ++ raw := by
    have h4 : (be32 t ++ (be32 raw.length ++ raw)).drop 4 = be32 raw.length ++ raw :=
      List.drop_left' hA
    simpa [Encode, List.append_assoc] using h4
  have htake8 : ((Encode ⟨t, raw⟩).drop 4).take 4 = be32 raw.length := by
    rw [hdrop4]; exact List.take_left' hB
  have hdrop8 : (Encode ⟨t, raw⟩).drop 8 = raw := by
    have : Encode ⟨t, raw⟩ = (be32 t ++ be32 raw.length) ++ raw := by
      simp [Encode, List.append_assoc]
    rw [this]
    exact List.drop_left' (by simp [hA, hB])
  have hlen : (Encode ⟨t, raw⟩).length = 8 + raw.length := by
    simp [Encode, be32]
    omega
  rw [Decode, htake4, htake8, hdrop8, hlen]
  rw [if_neg (by omega)]
  simp only [fromBE32_be32 t ht, fromBE32_be32 raw.length hl]
  rw [if_neg (by omega)]
  simp

/-- C5 witness at a concrete message. -/
theorem C5_message_roundtrip_witness :
    Encode ⟨3, [10, 20, 30]⟩ =
        be32 3 ++ be32 3 ++ [10, 20, 30] ∧
      Decode (Encode ⟨3, [10, 20, 30]⟩) = .ok ⟨3, [10, 20, 30]⟩ :=
  C5_message_roundtrip ⟨3, [10, 20, 30]⟩ (by decide) (by decide)

/-- C7: Unmarshal errors on every non-DATA message; a DATA message with an
empty body succeeds leaving the target at its zero value; a DATA body of
length 1, 2 or 3 is a "body too short" error; otherwise the 4-byte status
prefix is skipped and the rest goes to the structured-text parser. -/
theorem C7_unmarshal (m : Message) :
    (m.type_ ≠ ConnectionData →
      Unmarshal m = .err "unmarshaling message of this type not supported") ∧
    (m.type_ = ConnectionData → m.raw.length = 0 → Unmarshal m = .okZero) ∧
    (m.type_ = ConnectionData →
      (m.raw.length = 1 ∨ m.raw.length = 2 ∨ m.raw.length = 3) →
      Unmarshal m = .err "DATA message body too short") ∧
    (m.type_ = ConnectionData → 4 ≤ m.raw.length →
      Unmarshal m = .jsonParse (m.raw.drop 4)) := by
  refine ⟨fun h => ?_, fun h h0 => ?_, fun h h123 => ?_, fun h h4 => ?_⟩
  · unfold Unmarshal; rw [if_pos h]
  · unfold Unmarshal; rw [if_neg (by simp [h]), if_pos h0]
  · unfold Unmarshal
    rw [if_neg (by simp [h]), if_neg (by omega), if_pos (by omega)]
  · unfold Unmarshal
    rw [if_neg (by simp [h]), if_neg (by omega), if_neg (by omega)]

/-- C7 witness at concrete messages (hypotheses discharged at `100`/length 4). -/
theorem C7_unmarshal_witness :
    Unmarshal ⟨100, [0, 0, 0, 100, 65]⟩ = .jsonParse [65] :=
  (C7_unmarshal ⟨100, [0, 0, 0, 100, 65]⟩).2.2.2 rfl (by decide)

/-- C8: ServerVersion fails when the reply is not OK or its body is shorter
than 4 bytes; otherwise the subtractive decomposition in the source equals
major = v/10000, minor = (v/100) mod 100, patch = v mod 100 on the big-endian
version integer, with trailing bytes as the extra tag. -/
theorem C8_server_version (res : Message) :
    (res.type_ ≠ ConnectionOK → (serverVersionReply res).isErr = true) ∧
    (res.type_ = ConnectionOK → res.raw.length < 4 →
      (serverVersionReply res).isErr = true) ∧
    (res.type_ = ConnectionOK → 4 ≤ res.raw.length →
      serverVersionReply res =
        .ok (((fromBE32 (res.raw.take 4) / 10000 : Nat) : Int),
             ((fromBE32 (res.raw.take 4) / 100 % 100 : Nat) : Int),
             ((fromBE32 (res.raw.take 4) % 100 : Nat) : Int),
             res.raw.drop 4)) := by
  refine ⟨fun h => ?_, fun h h4 => ?_, fun h h4 => ?_⟩
  · unfold serverVersionReply
    rw [if_pos h]; rfl
  · unfold serverVersionReply
    rw [if_neg (by simp [h]), if_pos h4]; rfl
  · simp only [serverVersionReply]
    rw [if_neg (by simp [h]), if_neg (by omega)]
    set v := fromBE32 (res.raw.take 4) with hv
    have e1 : ((v : Int)).tdiv (10000 : Int) = ((v / 10000 : Nat) : Int) := rfl
    have e2 : ((v : Int)).tdiv (100 : Int) = ((v / 100 : Nat) : Int) := rfl
    have eminor : ((v / 100 : Nat) : Int) - 100 * ((v / 10000 : Nat) : Int)
        = ((v / 100 % 100 : Nat) : Int) := by push_cast; omega
    have epatch : ((v : Nat) : Int) - 10000 * ((v / 10000 : Nat) : Int)
        - 100 * ((v / 100 % 100 : Nat) : Int) = ((v % 100 : Nat) : Int) := by
      push_cast; omega
    simp only [e1, e2, eminor, epatch]

/-- C8 witness: version integer 10203 decomposes as 1.2.3 with extra `[65]`. -/
theorem C8_server_version_witness :
    serverVersionReply ⟨0, [0, 0, 39, 219, 65]⟩ = .ok (1, 2, 3, [65]) := by
  have h := (C8_server_version ⟨0, [0, 0, 39, 219, 65]⟩).2.2 rfl (by decide)
  rw [h]; decide

/-- C2: the greedy formatter's concrete outputs — zero gives `"0s"`, a bare
nanosecond remainder gives a fraction zero-padded to 9 digits with trailing
zeros stripped, mixed whole units are emitted largest first with suffixes and
a trailing `s` exactly when a whole-seconds or fractional component appears,
and exactly one minute formats as `"1m"` with no trailing `s`. -/
theorem C2_marshal_algorithm :
    MarshalJSON 0 = "\"0s\"".toList ∧
    MarshalJSON 123 = "\".000000123s\"".toList ∧
    MarshalJSON 1000123000 = "\"1.000123s\"".toList ∧
    MarshalJSON 47940228000000000 = "\"1Y6M7D\"".toList ∧
    MarshalJSON (Year + Day + Minute) = "\"1Y1D1m\"".toList ∧
    MarshalJSON Minute = "\"1m\"".toList := by
  decide

/-- C10: every strictly negative duration marshals (without error) to the
two-character quoted-empty string, which does not parse back to it (the
parser yields 0 for that input). -/
theorem C10_negative_marshal (d : Int) (hd : d < 0) :
    MarshalJSON d = ['"', '"'] ∧
      UnmarshalJSON (MarshalJSON d) = .ok 0 ∧
      UnmarshalJSON (MarshalJSON d) ≠ .ok d := by
  have hY : ¬ (Year ≤ d) := by
    have h0 : (0 : Int) < Year := by decide
    omega
  have hM : ¬ (Month ≤ d) := by
    have h0 : (0 : Int) < Month := by decide
    omega
  have hD : ¬ (Day ≤ d) := by
    have h0 : (0 : Int) < Day := by decide
    omega
  have hH : ¬ (Hour ≤ d) := by
    have h0 : (0 : Int) < Hour := by decide
    omega
  have hMin : ¬ (Minute ≤ d) := by
    have h0 : (0 : Int) < Minute := by decide
    omega
  have hS : ¬ (Second ≤ d) := by
    have h0 : (0 : Int) < Second := by decide
    omega
  have hmarsh : MarshalJSON d = ['"', '"'] := by
    rw [MarshalJSON, if_neg (by omega)]
    rw [show marshalLoop unitSpecs d ['"'] false = (['"'], d, false) by
      simp [marshalLoop, unitSpecs, hY, hM, hD, hH, hMin, hS]]
    have hlt : ¬ (0 : Int) < d := by omega
    simp [hlt]
  refine ⟨hmarsh, ?_, ?_⟩
  · rw [hmarsh]; decide
  · rw [hmarsh]
    intro hcontra
    have : (0 : Int) = d := by
      have h0 : UnmarshalJSON ['"', '"'] = .ok 0 := by decide
      rw [h0] at hcontra
      exact (GoResult.ok.injEq _ _).mp hcontra
    omega

/-- C10 witness at `d = -1`. -/
theorem C10_negative_marshal_witness :
    MarshalJSON (-1) = ['"', '"'] ∧
      UnmarshalJSON (MarshalJSON (-1)) = .ok 0 ∧
      UnmarshalJSON (MarshalJSON (-1)) ≠ .ok (-1) :=
  C10_negative_marshal (-1) (by decide)

/-- C6 counterexample: a DATA message with an empty body makes `DataType`
slice out of range (`m.Raw[:4]`) instead of returning an "unsupported
status" error. -/
theorem C6_datatype_counterexample :
    Message.dataType ⟨100, []⟩ = .panics ∧
      (Message.dataType ⟨100, []⟩).isErr = false := by
  decide

/-- C6 amended: `DataType` returns a "not a data message" error for every
non-DATA message; for a DATA message with at least 4 body bytes it maps the
leading status to HostList (LIST or LOOKUP), Host (FETCH) or Timeseries
(TIMESERIES) and returns an "unsupported status" error for every other
value; a DATA message with fewer than 4 body bytes is not handled (the
slice `m.Raw[:4]` faults). -/
theorem C6_datatype (m : Message) :
    (m.type_ ≠ ConnectionData → m.dataType = .err "message is not of type DATA") ∧
    (m.type_ = ConnectionData → m.raw.length < 4 → m.dataType = .panics) ∧
    (m.type_ = ConnectionData → 4 ≤ m.raw.length →
      (fromBE32 (m.raw.take 4) = ConnectionList ∨
          fromBE32 (m.raw.take 4) = ConnectionLookup →
        m.dataType = .ok .HostList) ∧
      (fromBE32 (m.raw.take 4) = ConnectionFetch → m.dataType = .ok .Host) ∧
      (fromBE32 (m.raw.take 4) = ConnectionTimeseries →
        m.dataType = .ok .Timeseries) ∧
      (fromBE32 (m.raw.take 4) ≠ ConnectionFetch →
        fromBE32 (m.raw.take 4) ≠ ConnectionList →
        fromBE32 (m.raw.take 4) ≠ ConnectionLookup →
        fromBE32 (m.raw.take 4) ≠ ConnectionTimeseries →
        m.dataType = .err "unknown DATA type")) := by
  refine ⟨fun h => ?_, fun h hlen => ?_,
    fun h hlen => ⟨fun hc => ?_, fun hc => ?_, fun hc => ?_,
      fun h1 h2 h3 h4 => ?_⟩⟩
  · simp only [Message.dataType]; rw [if_pos h]
  · simp only [Message.dataType]; rw [if_neg (by simp [h]), if_pos hlen]
  · simp only [Message.dataType]
    rw [if_neg (by simp [h]), if_neg (by omega), if_pos hc]
  · simp only [Message.dataType]
    rw [if_neg (by simp [h]), if_neg (by omega), hc,
      if_neg (by decide), if_pos rfl]
  · simp only [Message.dataType]
    rw [if_neg (by simp [h]), if_neg (by omega), hc,
      if_neg (by decide), if_neg (by decide), if_pos rfl]
  · simp only [Message.dataType]
    rw [if_neg (by simp [h]), if_neg (by omega),
      if_neg (by simp [h2, h3]), if_neg h1, if_neg h4]

/-- C6 witness: a DATA message whose status prefix is LIST classifies as a
host list. -/
theorem C6_datatype_witness :
    Message.dataType ⟨100, [0, 0, 0, 5]⟩ = .ok .HostList :=
  ((C6_datatype ⟨100, [0, 0, 0, 5]⟩).2.2 rfl (by decide)).1 (Or.inl (by decide))

/-- C9 counterexample: a LOG reply whose body has 4 or fewer bytes is not
forwarded to the log sink, so `[LOG, LOG, DATA]` with empty LOG bodies yields
zero diverted notifications, not two. -/
theorem C9_call_counterexample :
    callLoop [⟨2, []⟩, ⟨2, []⟩, ⟨100, []⟩] [] = .ok ⟨100, []⟩ [] [] := by
  decide

/-- C9 amended: in Call's receive loop a LOG reply is diverted to the log
sink (body offset by the 4-byte status sub-header) only when its body is
longer than 4 bytes, and is silently skipped otherwise, the loop continuing
in both cases; the first non-LOG reply terminates the loop, failing the call
with the server message when it is ERROR and returning it otherwise, leaving
later replies unconsumed; in particular `[LOG, LOG, DATA]` with LOG bodies
longer than 4 bytes yields the DATA result and the two log bodies in order. -/
theorem C9_call_loop (r : Message) (rest : List Message) (logs : List (List Nat)) :
    (r.type_ = ConnectionLog → 4 < r.raw.length →
      callLoop (r :: rest) logs = callLoop rest (logs ++ [r.raw.drop 4])) ∧
    (r.type_ = ConnectionLog → r.raw.length ≤ 4 →
      callLoop (r :: rest) logs = callLoop rest logs) ∧
    (r.type_ = ConnectionError → callLoop (r :: rest) logs = .fail r.raw logs rest) ∧
    (r.type_ ≠ ConnectionError → r.type_ ≠ ConnectionLog →
      callLoop (r :: rest) logs = .ok r logs rest) ∧
    (∀ b1 b2 body : List Nat, 4 < b1.length → 4 < b2.length →
      callLoop [⟨ConnectionLog, b1⟩, ⟨ConnectionLog, b2⟩, ⟨ConnectionData, body⟩] [] =
        .ok ⟨ConnectionData, body⟩ [b1.drop 4, b2.drop 4] []) := by
  obtain ⟨ty, rawb⟩ := r
  refine ⟨fun h hlen => ?_, fun h hlen => ?_, fun h => ?_, fun h1 h2 => ?_,
    fun b1 b2 body hb1 hb2 => ?_⟩
  · have h' : ty = ConnectionLog := h
    subst h'
    simp [callLoop, ConnectionLog, ConnectionError, hlen]
  · have h' : ty = ConnectionLog := h
    subst h'
    have hlen' : rawb.length ≤ 4 := hlen
    simp [callLoop, ConnectionLog, ConnectionError,
      show ¬ 4 < rawb.length from by omega]
  · have h' : ty = ConnectionError := h
    subst h'
    simp [callLoop, ConnectionError]
  · have h1' : ty ≠ ConnectionError := h1
    have h2' : ty ≠ ConnectionLog := h2
    simp [callLoop, h1', h2']
  · simp [callLoop, ConnectionLog, ConnectionError, ConnectionData, hb1, hb2]

/-- C9 witness: two LOG replies with 5- and 6-byte bodies are both diverted
in order before the DATA reply is returned. -/
theorem C9_call_loop_witness :
    callLoop [⟨2, [1, 2, 3, 4, 5]⟩, ⟨2, [9, 8, 7, 6, 5, 4]⟩, ⟨100, [7]⟩] [] =
      .ok ⟨100, [7]⟩ [[5], [5, 4]] [] := by
  have h := (C9_call_loop ⟨2, []⟩ [] []).2.2.2.2 [1, 2, 3, 4, 5]
    [9, 8, 7, 6, 5, 4] [7] (by decide) (by decide)
  simpa using h

theorem parseLoop_nil (orig : List Char) (fuel : Nat) (res : Int) :
    parseLoop orig fuel [] res = .ok res := by
  cases fuel <;> rfl

theorem isUnitChar_of_isDig {c : Char} (h : isDig c = true) :
    isUnitChar c = false := by
  simp [isUnitChar, h]

theorem parseLoop_comp (orig : List Char) (fuel : Nat) (k : Nat) (uc : Char)
    (v : Int) (rest : List Char) (res : Int)
    (hu : unitMap [uc] = some v)
    (hrest : rest.takeWhile isUnitChar = []) :
    parseLoop orig (fuel + 1) (natDigits k ++ uc :: rest) res =
      parseLoop orig fuel rest (res + (k : Int) * v) := by
  obtain ⟨hdig, hdot, hunitc⟩ := unitMap_char_not_dig hu
  have h1 : (natDigits k ++ uc :: rest).takeWhile isDig = natDigits k := by
    rw [takeWhile_append_all (uc :: rest) (natDigits_digits k),
      takeWhile_cons_false rest hdig, List.append_nil]
  have h2 : (natDigits k ++ uc :: rest).dropWhile isDig = uc :: rest := by
    rw [dropWhile_append_all (uc :: rest) (natDigits_digits k),
      dropWhile_cons_false rest hdig]
  have h3 : (uc :: rest).takeWhile isUnitChar = [uc] := by
    simp [List.takeWhile_cons, hunitc, hrest]
  have h4 : (uc :: rest).dropWhile isUnitChar = rest := by
    simp [List.dropWhile_cons, hunitc, dropWhile_of_takeWhile_nil hrest]
  cases hnd : natDigits k with
  | nil => exact absurd hnd (natDigits_ne_nil k)
  | cons dc ds =>
    rw [hnd] at h1 h2
    rw [List.cons_append] at h1 h2 ⊢
    have hdval : digitsVal (dc :: ds) = k := by rw [← hnd, digitsVal_natDigits]
    simp only [parseLoop, h1, h2]
    have hcond : ¬ ((uc :: rest).head? = some '.') := by simp [hdot]
    simp only [if_neg hcond]
    simp only [List.isEmpty_cons, Bool.false_eq_true, if_false, h3, h4, hu, hdval,
      List.length_cons, Nat.succ_ne_zero, ite_false]
    split_ifs with hvs <;> simp


theorem flattenComps_cons (kc : Nat × Char) (cs : List (Nat × Char)) :
    flattenComps (kc :: cs) = natDigits kc.1 ++ kc.2 :: flattenComps cs := rfl

theorem flattenComps_length (cs : List (Nat × Char)) :
    cs.length ≤ (flattenComps cs).length := by
  induction cs with
  | nil => simp [flattenComps]
  | cons kc cs ih =>
    rw [flattenComps_cons]
    have h1 : 1 ≤ (natDigits kc.1).length := by
      cases hnd : natDigits kc.1 with
      | nil => exact absurd hnd (natDigits_ne_nil _)
      | cons a l => simp
    simp only [List.length_append, List.length_cons]
    omega

theorem takeWhile_unit_flatten (cs : List (Nat × Char)) (rest : List Char)
    (h : rest.takeWhile isUnitChar = []) :
    (flattenComps cs ++ rest).takeWhile isUnitChar = [] := by
  cases cs with
  | nil => simpa [flattenComps] using h
  | cons kc cs' =>
    rw [flattenComps_cons]
    cases hnd : natDigits kc.1 with
    | nil => exact absurd hnd (natDigits_ne_nil _)
    | cons dc ds =>
      have hdc : isDig dc = true := natDigits_digits kc.1 dc (by rw [hnd]; simp)
      simp only [List.cons_append]
      exact takeWhile_cons_false _ (isUnitChar_of_isDig hdc)

theorem parseLoop_comps (orig : List Char) (cs : List (Nat × Char)) :
    ∀ (fuel : Nat) (rest : List Char) (res : Int),
      (∀ kc ∈ cs, (unitMap [kc.2]).isSome = true) →
      rest.takeWhile isUnitChar = [] →
      parseLoop orig (fuel + cs.length) (flattenComps cs ++ rest) res =
        parseLoop orig fuel rest (res + compsVal cs) := by
  induction cs with
  | nil =>
    intro fuel rest res _ _
    simp [flattenComps, compsVal]
  | cons kc cs' ih =>
    intro fuel rest res hall hrest
    obtain ⟨v, hv⟩ := Option.isSome_iff_exists.mp (hall kc (by simp))
    have hflat : flattenComps (kc :: cs') ++ rest =
        natDigits kc.1 ++ kc.2 :: (flattenComps cs' ++ rest) := by
      rw [flattenComps_cons]
      simp [List.append_assoc]
    have hlen : fuel + (kc :: cs').length = (fuel + cs'.length) + 1 := by
      simp only [List.length_cons]
      omega
    rw [hflat, hlen,
      parseLoop_comp orig (fuel + cs'.length) kc.1 kc.2 v _ res hv
        (takeWhile_unit_flatten cs' rest hrest),
      ih fuel rest (res + (kc.1 : Int) * v)
        (fun x hx => hall x (by simp [hx])) hrest]
    have hcv : compsVal (kc :: cs') = (kc.1 : Int) * v + compsVal cs' := by
      show (kc.1 : Int) * ((unitMap [kc.2]).getD 0) + compsVal cs' = _
      rw [hv]
      rfl
    rw [hcv]
    congr 1
    ring


theorem pad9_facts (r : Nat) (hr : r < 1000000000) :
    (∀ c ∈ pad9 (natDigits r), isDig c = true) ∧
      (pad9 (natDigits r)).length = 9 ∧
      digitsVal (pad9 (natDigits r)) = r := by
  have h109 : (10 : Nat) ^ 9 = 1000000000 := by norm_num
  have hlen : (natDigits r).length ≤ 9 :=
    natDigits_length_le (by omega) (by omega)
  refine ⟨?_, ?_, ?_⟩
  · intro c hc
    rcases List.mem_append.mp hc with hc | hc
    · rw [List.eq_of_mem_replicate hc]
      decide
    · exact natDigits_digits r c hc
  · simp only [pad9, List.length_append, List.length_replicate]
    omega
  · rw [pad9, digitsVal_append, digitsVal_replicate_zero, digitsVal_natDigits]
    omega

theorem parseLoop_fractail (orig : List Char) (fuel : Nat) (s r : Nat)
    (DS : List Char) (res : Int)
    (hDS : (s = 0 ∧ DS = []) ∨ (0 < s ∧ DS = natDigits s))
    (hr0 : 0 < r) (hr : r < 1000000000) :
    parseLoop orig (fuel + 1)
      (DS ++ '.' :: (stripTrailingZeros (pad9 (natDigits r)) ++ ['s'])) res =
      .ok (res + ((s * 1000000000 + r : Nat) : Int)) := by
  obtain ⟨hLdig, hL9, hLval⟩ := pad9_facts r hr
  obtain ⟨t, hdecomp, hsval, hslen⟩ := strip_decomp (pad9 (natDigits r))
  set F := stripTrailingZeros (pad9 (natDigits r)) with hF
  have hFdig : ∀ c ∈ F, isDig c = true := by
    intro c hc
    exact hLdig c (by rw [hdecomp]; exact List.mem_append.mpr (Or.inl hc))
  have hFne : F ≠ [] := by
    intro hnil
    rw [hnil] at hsval
    have : digitsVal ([] : List Char) = 0 := rfl
    rw [this] at hsval
    omega
  have hF9 : F.length ≤ 9 := by omega
  have hFr : digitsVal F * 10 ^ t = r := by omega
  have hDSdig : ∀ c ∈ DS, isDig c = true := by
    rcases hDS with ⟨_, rfl⟩ | ⟨_, rfl⟩
    · simp
    · exact natDigits_digits s
  have hDSval : digitsVal DS = s := by
    rcases hDS with ⟨hs, rfl⟩ | ⟨_, rfl⟩
    · simp [digitsVal, hs]
    · exact digitsVal_natDigits s
  have hds : (DS ++ '.' :: (F ++ ['s'])).takeWhile isDig = DS := by
    rw [takeWhile_append_all _ hDSdig, takeWhile_cons_false _ (by decide),
      List.append_nil]
  have hr1 : (DS ++ '.' :: (F ++ ['s'])).dropWhile isDig = '.' :: (F ++ ['s']) := by
    rw [dropWhile_append_all _ hDSdig, dropWhile_cons_false _ (by decide)]
  have hfds : (F ++ ['s']).takeWhile isDig = F := by
    rw [takeWhile_append_all _ hFdig, takeWhile_cons_false _ (by decide),
      List.append_nil]
  have hfr3 : (F ++ ['s']).dropWhile isDig = ['s'] := by
    rw [dropWhile_append_all _ hFdig, dropWhile_cons_false _ (by decide)]
  obtain ⟨c0, l0, hdata⟩ :
      ∃ c0 l0, DS ++ '.' :: (F ++ ['s']) = c0 :: l0 := by
    cases DS with
    | nil => exact ⟨'.', F ++ ['s'], rfl⟩
    | cons a l => exact ⟨a, l ++ '.' :: (F ++ ['s']), rfl⟩
  rw [hdata]
  simp only [parseLoop]
  rw [← hdata]
  simp only [hds, hr1, List.head?_cons, List.tail_cons]
  have hcond : (some '.' = some ('.' : Char)) = True := by simp
  simp only [hcond, if_true, hfds, hfr3, hDSval]
  have h109 : (1000000000 : Nat) = 10 ^ 9 := by norm_num
  rw [h109, fracAcc_spec F s 9 hF9]
  have hdec : (s * 10 ^ F.length + digitsVal F) * 10 ^ (9 - F.length) =
      s * 1000000000 + r := by
    have hpow : 10 ^ F.length * 10 ^ (9 - F.length) = 10 ^ 9 :=
      by rw [← pow_add]; congr 1; omega
    have ht : 9 - F.length = t := by omega
    calc (s * 10 ^ F.length + digitsVal F) * 10 ^ (9 - F.length)
        = s * (10 ^ F.length * 10 ^ (9 - F.length)) +
          digitsVal F * 10 ^ (9 - F.length) := by ring
      _ = s * 1000000000 + r := by rw [hpow, ht, hFr]; norm_num
  simp only [hdec]
  have h2 : DS.length + 1 + F.length ≠ 0 := by omega
  rw [if_neg (by decide), if_neg h2]
  have h3 : List.takeWhile isUnitChar ['s'] = ['s'] := rfl
  have h4 : List.dropWhile isUnitChar ['s'] = ([] : List Char) := rfl
  have h5 : unitMap ['s'] = some Second := rfl
  simp only [h3, h4, h5, if_true]
  rw [mul_one, parseLoop_nil]
  norm_num


theorem marshalLoop_step (iv : Int) (suf : List Char)
    (specs : List (Int × List Char)) (dd : Int) (s : List Char) (secs : Bool)
    (hiv : 0 < iv) (hdd : 0 ≤ dd) :
    marshalLoop ((iv, suf) :: specs) dd s secs =
      marshalLoop specs (dd % iv)
        (s ++ (if iv ≤ dd then natDigits ((dd / iv).toNat) ++ suf else []))
        (secs || (decide (iv ≤ dd) && (iv == Second))) := by
  by_cases hle : iv ≤ dd
  · have h1 : marshalLoop ((iv, suf) :: specs) dd s secs =
        marshalLoop specs (dd.tmod iv) (s ++ natDigits (dd.tdiv iv).toNat ++ suf)
          (secs || (iv == Second)) := by
      rw [marshalLoop, if_pos hle]
    rw [h1, Int.tmod_eq_emod hdd (le_of_lt hiv), Int.tdiv_eq_ediv hdd (le_of_lt hiv),
      if_pos hle]
    have : (decide (iv ≤ dd)) = true := by simp [hle]
    rw [this]
    simp [List.append_assoc]
  · have h1 : marshalLoop ((iv, suf) :: specs) dd s secs =
        marshalLoop specs dd s secs := by
      rw [marshalLoop, if_neg hle]
    rw [h1, if_neg hle, Int.emod_eq_of_lt hdd (lt_of_not_le hle)]
    have : (decide (iv ≤ dd)) = false := by simp [hle]
    rw [this]
    simp

theorem marshalLoop_nil (dd : Int) (s : List Char) (secs : Bool) :
    marshalLoop [] dd s secs = (s, dd, secs) := rfl

theorem unmarshal_quoted (interior : List Char) :
    UnmarshalJSON ('"' :: (interior ++ ['"'])) =
      parseLoop interior (interior.length + 1) interior 0 := by
  have hlast0 : ∀ l : List Char, (l ++ ['"']).getLastD ' ' = '"' := fun l => by simp
  have hlast : (('"' : Char) :: (interior ++ ['"'])).getLastD ' ' = '"' := by
    have h := hlast0 ('"' :: interior)
    simpa using h
  simp only [UnmarshalJSON]
  rw [if_neg (not_or.mpr ⟨by simp, fun h => h hlast⟩)]
  rw [if_neg (by simp)]
  simp

theorem flattenComps_append (a b : List (Nat × Char)) :
    flattenComps (a ++ b) = flattenComps a ++ flattenComps b := by
  induction a with
  | nil => simp [flattenComps]
  | cons kc a ih =>
    rw [List.cons_append, flattenComps_cons, flattenComps_cons, ih,
      List.append_assoc]
    simp

theorem compsVal_append (a b : List (Nat × Char)) :
    compsVal (a ++ b) = compsVal a + compsVal b := by
  induction a with
  | nil => simp [compsVal]
  | cons kc a ih =>
    show (kc.1 : Int) * ((unitMap [kc.2]).getD 0) + compsVal (a ++ b) = _
    rw [ih]
    show _ = (kc.1 : Int) * ((unitMap [kc.2]).getD 0) + compsVal a + compsVal b
    ring

theorem flattenComps_if (c : Prop) [Decidable c] (k : Nat) (ch : Char) :
    flattenComps (if c then [(k, ch)] else []) =
      if c then natDigits k ++ [ch] else [] := by
  split <;> rfl

theorem compsVal_if (c : Prop) [Decidable c] (k : Nat) (ch : Char) :
    compsVal (if c then [(k, ch)] else []) =
      if c then (k : Int) * ((unitMap [ch]).getD 0) else 0 := by
  split
  · show (k : Int) * ((unitMap [ch]).getD 0) + 0 = _
    ring
  · rfl


theorem mem_if_singleton {kc x : Nat × Char} {c : Prop} [Decidable c]
    (h : kc ∈ (if c then [x] else [])) : kc = x := by
  split at h
  · simpa using h
  · simp at h

theorem takeWhile_unit_natDigits (s : Nat) (rest' : List Char) :
    (natDigits s ++ rest').takeWhile isUnitChar = [] := by
  cases hnd : natDigits s with
  | nil => exact absurd hnd (natDigits_ne_nil s)
  | cons dc ds =>
    have hdc : isDig dc = true := natDigits_digits s dc (by rw [hnd]; simp)
    simp only [List.cons_append]
    exact takeWhile_cons_false _ (isUnitChar_of_isDig hdc)

theorem takeWhile_unit_DS (DS rest' : List Char)
    (hDS : DS = [] ∨ ∃ s, DS = natDigits s) :
    (DS ++ '.' :: rest').takeWhile isUnitChar = [] := by
  rcases hDS with rfl | ⟨s, rfl⟩
  · exact takeWhile_cons_false _ (by decide)
  · exact takeWhile_unit_natDigits s _

theorem if_comp_val (U r u : Int) (hU : 0 < U) (hr : 0 ≤ r) (huv : u = U) :
    (if U ≤ r then ((r / U).toNat : Int) * u else 0) = U * (r / U) := by
  rw [huv]
  by_cases h : U ≤ r
  · rw [if_pos h, Int.toNat_of_nonneg (Int.ediv_nonneg hr (le_of_lt hU))]
    ring
  · rw [if_neg h, Int.ediv_eq_zero_of_lt hr (lt_of_not_le h)]
    ring


/-- C1: for every non-negative 64-bit duration d, parsing the bytes
produced by MarshalJSON succeeds and yields d back. -/
theorem C1_duration_roundtrip (d : Int) (hge : 0 ≤ d) (hlt : d < 2 ^ 63) :
    UnmarshalJSON (MarshalJSON d) = .ok d := by
  rcases lt_or_eq_of_le hge with hpos | hzero
  case inr => rw [← hzero]; decide
  have hYpos : (0 : Int) < Year := by decide
  have hMpos : (0 : Int) < Month := by decide
  have hDpos : (0 : Int) < Day := by decide
  have hHpos : (0 : Int) < Hour := by decide
  have hmpos : (0 : Int) < Minute := by decide
  have hSpos : (0 : Int) < Second := by decide
  have h1 := marshalLoop_step Year ['Y']
    [(Month, ['M']), (Day, ['D']), (Hour, ['h']), (Minute, ['m']), (Second, [])]
    d ['"'] false hYpos hge
  have hr1nn : 0 ≤ d % Year := Int.emod_nonneg d (by decide)
  rw [marshalLoop_step Month ['M'] _ _ _ _ hMpos hr1nn] at h1
  have hr2nn : 0 ≤ d % Year % Month := Int.emod_nonneg _ (by decide)
  rw [marshalLoop_step Day ['D'] _ _ _ _ hDpos hr2nn] at h1
  have hr3nn : 0 ≤ d % Year % Month % Day := Int.emod_nonneg _ (by decide)
  rw [marshalLoop_step Hour ['h'] _ _ _ _ hHpos hr3nn] at h1
  have hr4nn : 0 ≤ d % Year % Month % Day % Hour := Int.emod_nonneg _ (by decide)
  rw [marshalLoop_step Minute ['m'] _ _ _ _ hmpos hr4nn] at h1
  have hr5nn : 0 ≤ d % Year % Month % Day % Hour % Minute :=
    Int.emod_nonneg _ (by decide)
  rw [marshalLoop_step Second [] _ _ _ _ hSpos hr5nn] at h1
  rw [marshalLoop_nil] at h1
  obtain ⟨r1, hg1⟩ : ∃ r, r = d % Year := ⟨_, rfl⟩
  rw [← hg1] at h1 hr1nn hr2nn hr3nn hr4nn hr5nn
  obtain ⟨r2, hg2⟩ : ∃ r, r = r1 % Month := ⟨_, rfl⟩
  rw [← hg2] at h1 hr2nn hr3nn hr4nn hr5nn
  obtain ⟨r3, hg3⟩ : ∃ r, r = r2 % Day := ⟨_, rfl⟩
  rw [← hg3] at h1 hr3nn hr4nn hr5nn
  obtain ⟨r4, hg4⟩ : ∃ r, r = r3 % Hour := ⟨_, rfl⟩
  rw [← hg4] at h1 hr4nn hr5nn
  obtain ⟨r5, hg5⟩ : ∃ r, r = r4 % Minute := ⟨_, rfl⟩
  rw [← hg5] at h1 hr5nn
  obtain ⟨r6, hg6⟩ : ∃ r, r = r5 % Second := ⟨_, rfl⟩
  rw [← hg6] at h1
  have e1 : Year * (d / Year) + r1 = d := by rw [hg1]; exact Int.ediv_add_emod d Year
  have e2 : Month * (r1 / Month) + r2 = r1 := by
    rw [hg2]; exact Int.ediv_add_emod r1 Month
  have e3 : Day * (r2 / Day) + r3 = r2 := by
    rw [hg3]; exact Int.ediv_add_emod r2 Day
  have e4 : Hour * (r3 / Hour) + r4 = r3 := by
    rw [hg4]; exact Int.ediv_add_emod r3 Hour
  have e5 : Minute * (r4 / Minute) + r5 = r4 := by
    rw [hg5]; exact Int.ediv_add_emod r4 Minute
  have e6 : Second * (r5 / Second) + r6 = r5 := by
    rw [hg6]; exact Int.ediv_add_emod r5 Second
  have hr6nn : 0 ≤ r6 := by rw [hg6]; exact Int.emod_nonneg _ (by decide)
  have hr6lt : r6 < Second := by rw [hg6]; exact Int.emod_lt_of_pos _ hSpos
  have hb1 : ((Year : Int) == Second) = false := by decide
  have hb2 : ((Month : Int) == Second) = false := by decide
  have hb3 : ((Day : Int) == Second) = false := by decide
  have hb4 : ((Hour : Int) == Second) = false := by decide
  have hb5 : ((Minute : Int) == Second) = false := by decide
  have hb6 : ((Second : Int) == Second) = true := by decide
  rw [hb1, hb2, hb3, hb4, hb5, hb6] at h1
  simp only [Bool.and_false, Bool.or_false, Bool.and_true, Bool.false_or,
    List.append_nil] at h1
  obtain ⟨cs5, hcs5⟩ : ∃ cs : List (Nat × Char), cs =
      (if Year ≤ d then [((d / Year).toNat, 'Y')] else []) ++
      ((if Month ≤ r1 then [((r1 / Month).toNat, 'M')] else []) ++
      ((if Day ≤ r2 then [((r2 / Day).toNat, 'D')] else []) ++
      ((if Hour ≤ r3 then [((r3 / Hour).toNat, 'h')] else []) ++
      (if Minute ≤ r4 then [((r4 / Minute).toNat, 'm')] else [])))) := ⟨_, rfl⟩
  have hflat : flattenComps cs5 =
      (if Year ≤ d then natDigits (d / Year).toNat ++ ['Y'] else []) ++
      ((if Month ≤ r1 then natDigits (r1 / Month).toNat ++ ['M'] else []) ++
      ((if Day ≤ r2 then natDigits (r2 / Day).toNat ++ ['D'] else []) ++
      ((if Hour ≤ r3 then natDigits (r3 / Hour).toNat ++ ['h'] else []) ++
      (if Minute ≤ r4 then natDigits (r4 / Minute).toNat ++ ['m'] else [])))) := by
    rw [hcs5, flattenComps_append, flattenComps_append, flattenComps_append,
      flattenComps_append, flattenComps_if, flattenComps_if, flattenComps_if,
      flattenComps_if, flattenComps_if]
  have hcsval : compsVal cs5 = Year * (d / Year) + (Month * (r1 / Month) +
      (Day * (r2 / Day) + (Hour * (r3 / Hour) + Minute * (r4 / Minute)))) := by
    rw [hcs5, compsVal_append, compsVal_append, compsVal_append, compsVal_append,
      compsVal_if, compsVal_if, compsVal_if, compsVal_if, compsVal_if,
      if_comp_val Year d ((unitMap ['Y']).getD 0) hYpos hge rfl,
      if_comp_val Month r1 ((unitMap ['M']).getD 0) hMpos hr1nn rfl,
      if_comp_val Day r2 ((unitMap ['D']).getD 0) hDpos hr2nn rfl,
      if_comp_val Hour r3 ((unitMap ['h']).getD 0) hHpos hr3nn rfl,
      if_comp_val Minute r4 ((unitMap ['m']).getD 0) hmpos hr4nn rfl]
  have hall : ∀ kc ∈ cs5, (unitMap [kc.2]).isSome = true := by
    intro kc hkc
    rw [hcs5] at hkc
    simp only [List.mem_append] at hkc
    rcases hkc with hkc | hkc | hkc | hkc | hkc <;>
      rw [mem_if_singleton hkc] <;> rfl
  have hlen5 : cs5.length ≤ (flattenComps cs5).length := flattenComps_length cs5
  rw [MarshalJSON, if_neg (by omega),
    show unitSpecs = [(Year, ['Y']), (Month, ['M']), (Day, ['D']), (Hour, ['h']),
      (Minute, ['m']), (Second, ([] : List Char))] from rfl]
  simp only [h1]
  have hDSalt : (if Second ≤ r5 then natDigits (r5 / Second).toNat else ([] : List Char)) = [] ∨
      ∃ s, (if Second ≤ r5 then natDigits (r5 / Second).toNat else ([] : List Char)) = natDigits s := by
    by_cases hsec : Second ≤ r5
    · exact Or.inr ⟨(r5 / Second).toNat, if_pos hsec⟩
    · exact Or.inl (if_neg hsec)
  have hDSspec : ((r5 / Second).toNat = 0 ∧
        (if Second ≤ r5 then natDigits (r5 / Second).toNat else ([] : List Char)) = []) ∨
      (0 < (r5 / Second).toNat ∧
        (if Second ≤ r5 then natDigits (r5 / Second).toNat else ([] : List Char)) =
          natDigits (r5 / Second).toNat) := by
    by_cases hsec : Second ≤ r5
    · refine Or.inr ⟨?_, if_pos hsec⟩
      have h1le : 1 ≤ r5 / Second := by
        rw [Int.le_ediv_iff_mul_le hSpos]
        linarith
      omega
    · refine Or.inl ⟨?_, if_neg hsec⟩
      rw [Int.ediv_eq_zero_of_lt hr5nn (lt_of_not_le hsec)]
      rfl
  have hq6nn : 0 ≤ r5 / Second := Int.ediv_nonneg hr5nn (le_of_lt hSpos)
  by_cases hrem : 0 < r6
  · -- fractional remainder
    rw [if_pos hrem]
    have hr6lt9 : r6 < 1000000000 := by
      have hs : (1000000000 : Int) = Second := rfl
      rw [hs]
      exact hr6lt
    have hr6Npos : 0 < r6.toNat := by omega
    have hr6Nlt : r6.toNat < 1000000000 := by omega
    have hnz : ∃ x ∈ pad9 (natDigits r6.toNat), ¬ x = '0' := by
      by_contra hcon
      push_neg at hcon
      have hz := digitsVal_all_zero hcon
      obtain ⟨_, _, hval9⟩ := pad9_facts r6.toNat hr6Nlt
      omega
    have hac : ∀ (A X : List Char), A ++ '.' :: X = (A ++ ['.']) ++ X := by
      intro A X
      rw [List.append_assoc]
      rfl
    rw [hac _ (pad9 (natDigits r6.toNat)), strip_append _ hnz, ← hac]
    have hParse : UnmarshalJSON ('"' :: ((flattenComps cs5 ++
        ((if Second ≤ r5 then natDigits (r5 / Second).toNat else []) ++ '.' ::
          (stripTrailingZeros (pad9 (natDigits r6.toNat)) ++ ['s']))) ++ ['"'])) =
        .ok d := by
      rw [unmarshal_quoted]
      have hL : (flattenComps cs5 ++
          ((if Second ≤ r5 then natDigits (r5 / Second).toNat else []) ++ '.' ::
            (stripTrailingZeros (pad9 (natDigits r6.toNat)) ++ ['s']))).length =
          (flattenComps cs5).length +
          ((if Second ≤ r5 then natDigits (r5 / Second).toNat else []) ++ '.' ::
            (stripTrailingZeros (pad9 (natDigits r6.toNat)) ++ ['s'])).length := by
        simp
      have htl : 1 ≤ ((if Second ≤ r5 then natDigits (r5 / Second).toNat else []) ++ '.' ::
          (stripTrailingZeros (pad9 (natDigits r6.toNat)) ++ ['s'])).length := by
        simp only [List.length_append, List.length_cons]
        omega
      rw [show (flattenComps cs5 ++
          ((if Second ≤ r5 then natDigits (r5 / Second).toNat else []) ++ '.' ::
            (stripTrailingZeros (pad9 (natDigits r6.toNat)) ++ ['s']))).length + 1 =
          (((flattenComps cs5 ++
          ((if Second ≤ r5 then natDigits (r5 / Second).toNat else []) ++ '.' ::
            (stripTrailingZeros (pad9 (natDigits r6.toNat)) ++ ['s']))).length -
            cs5.length - 1 + 1) + 1) + cs5.length from by omega]
      rw [parseLoop_comps _ cs5 _ _ 0 hall (takeWhile_unit_DS _ _ hDSalt)]
      rw [parseLoop_fractail _ _ (r5 / Second).toNat r6.toNat _ _ hDSspec hr6Npos hr6Nlt]
      have hval : (0 : Int) + compsVal cs5 +
          (((r5 / Second).toNat * 1000000000 + r6.toNat : Nat) : Int) = d := by
        push_cast
        rw [Int.toNat_of_nonneg hq6nn, Int.toNat_of_nonneg hr6nn, hcsval]
        have hsec2 : (1000000000 : Int) = Second := rfl
        rw [hsec2]
        linarith [e1, e2, e3, e4, e5, e6]
      rw [hval]
    rw [hflat] at hParse
    simp only [List.append_assoc, List.cons_append, List.singleton_append,
      List.nil_append, List.append_nil, if_true, ite_true] at hParse ⊢
    exact hParse
  · rw [if_neg hrem]
    have hr6z : r6 = 0 := by omega
    by_cases hsec : Second ≤ r5
    · have hParse : UnmarshalJSON ('"' :: ((flattenComps cs5 ++
          (natDigits (r5 / Second).toNat ++ ['s'])) ++ ['"'])) = .ok d := by
        rw [unmarshal_quoted]
        have hL : (flattenComps cs5 ++ (natDigits (r5 / Second).toNat ++ ['s'])).length =
            (flattenComps cs5).length +
              (natDigits (r5 / Second).toNat ++ ['s']).length := by
          simp
        have htl : 1 ≤ (natDigits (r5 / Second).toNat ++ ['s']).length := by
          simp only [List.length_append, List.length_cons]
          omega
        rw [show (flattenComps cs5 ++ (natDigits (r5 / Second).toNat ++ ['s'])).length + 1 =
            ((((flattenComps cs5 ++ (natDigits (r5 / Second).toNat ++ ['s'])).length -
              cs5.length - 1) + 1) + 1) + cs5.length from by omega]
        rw [parseLoop_comps _ cs5 _ _ 0 hall (takeWhile_unit_natDigits _ _)]
        rw [parseLoop_comp
          (flattenComps cs5 ++ (natDigits (r5 / Second).toNat ++ ['s']))
          ((flattenComps cs5 ++ (natDigits (r5 / Second).toNat ++ ['s'])).length -
            cs5.length - 1 + 1)
          (r5 / Second).toNat 's' Second [] (0 + compsVal cs5) rfl rfl]
        rw [parseLoop_nil]
        have hval : (0 : Int) + compsVal cs5 + ((r5 / Second).toNat : Int) * Second = d := by
          rw [Int.toNat_of_nonneg hq6nn, hcsval]
          linarith [e1, e2, e3, e4, e5, e6]
        rw [hval]
      rw [hflat] at hParse
      have hsecd : decide (Second ≤ r5) = true := by simp [hsec]
      simp only [hsecd, if_pos hsec, List.append_assoc, List.cons_append,
        List.singleton_append, List.nil_append, List.append_nil, if_true,
        ite_true] at hParse ⊢
      exact hParse
    · have hr5z : r5 = 0 := by
        have h56 : r6 = r5 := by
          rw [hg6, Int.emod_eq_of_lt hr5nn (lt_of_not_le hsec)]
        omega
      have hParse : UnmarshalJSON ('"' :: (flattenComps cs5 ++ ['"'])) = .ok d := by
        rw [unmarshal_quoted]
        have hch := parseLoop_comps (flattenComps cs5) cs5
          ((flattenComps cs5).length - cs5.length + 1) [] 0 hall rfl
        rw [List.append_nil] at hch
        rw [show (flattenComps cs5).length + 1 =
            ((flattenComps cs5).length - cs5.length + 1) + cs5.length from by omega]
        rw [hch, parseLoop_nil]
        have hval : (0 : Int) + compsVal cs5 = d := by
          rw [hcsval]
          linarith [e1, e2, e3, e4, e5]
        rw [hval]
      rw [hflat] at hParse
      have hsecd : decide (Second ≤ r5) = false := by simp [hsec]
      simp only [hsecd, if_neg hsec, List.append_assoc, List.cons_append,
        List.singleton_append, List.nil_append, List.append_nil,
        Bool.false_eq_true, if_false, ite_false] at hParse ⊢
      exact hParse


theorem unitMap_long {l : List Char} (h : 2 ≤ l.length) : unitMap l = none := by
  unfold unitMap
  split_ifs with h1 h2 h3 h4 h5 h6
  · rw [h1] at h; simp at h
  · rw [h2] at h; simp at h
  · rw [h3] at h; simp at h
  · rw [h4] at h; simp at h
  · rw [h5] at h; simp at h
  · rw [h6] at h; simp at h
  · rfl

/-- The unit table is undefined on the empty run. -/
theorem unitMap_nil : unitMap [] = none := rfl

/-- The lengths of the takeWhile prefix and the dropWhile suffix add up. -/
theorem length_takeWhile_add_dropWhile (p : Char → Bool) (l : List Char) :
    (l.takeWhile p).length + (l.dropWhile p).length = l.length := by
  conv_rhs => rw [← List.takeWhile_append_dropWhile p l]
  rw [List.length_append]

/-- The head of a nonempty dropWhile fails the predicate. -/
theorem dropWhile_head_false {p : Char → Bool} {l : List Char} {x : Char}
    {xs : List Char} (h : l.dropWhile p = x :: xs) : p x = false := by
  induction l with
  | nil => cases h
  | cons c cs ih =>
    by_cases hc : p c = true
    · rw [List.dropWhile_cons, if_pos hc] at h
      exact ih h
    · rw [List.dropWhile_cons, if_neg hc] at h
      injection h with h1 _
      rw [← h1]
      simpa using hc

/-- Scanning an appended list stops where scanning the first list stops,
provided the first list contains a failing element. -/
theorem takeWhile_append_stop {p : Char → Bool} {l : List Char} {x : Char}
    {xs : List Char} (m : List Char) (h : l.dropWhile p = x :: xs) :
    (l ++ m).takeWhile p = l.takeWhile p ∧
    (l ++ m).dropWhile p = x :: (xs ++ m) := by
  have hx : p x = false := dropWhile_head_false h
  have htk : ∀ c ∈ l.takeWhile p, p c = true := fun c hc =>
    List.mem_takeWhile_imp hc
  have hsplit : l.takeWhile p ++ (x :: xs) = l := by
    conv_rhs => rw [← List.takeWhile_append_dropWhile p l]
    rw [h]
  constructor
  · conv_lhs => rw [← hsplit]
    rw [List.append_assoc, takeWhile_append_all _ htk, List.cons_append,
      takeWhile_cons_false _ hx, List.append_nil]
  · conv_lhs => rw [← hsplit]
    rw [List.append_assoc, dropWhile_append_all _ htk, List.cons_append,
      dropWhile_cons_false _ hx]

/-- One parse iteration that starts exactly at a fractional component whose
unit is not seconds always errs: the unit run after the fraction is a single
non-second unit letter (invalid fraction), a longer run (invalid unit), or
empty (invalid unit). -/
theorem parseLoop_frac_step (orig : List Char) (fuel : Nat)
    (a b rest : List Char) (u : Char) (res : Int)
    (ha : ∀ c ∈ a, isDig c = true) (hb : ∀ c ∈ b, isDig c = true)
    (hu1 : isDig u = false) (hu3 : isUnitChar u = true)
    (v : Int) (hu4 : unitMap [u] = some v) (hv : v ≠ Second) :
    (parseLoop orig (fuel + 1) (a ++ '.' :: (b ++ u :: rest)) res).isErr
      = true := by
  have hds : (a ++ '.' :: (b ++ u :: rest)).takeWhile isDig = a := by
    rw [takeWhile_append_all _ ha, takeWhile_cons_false _ (by decide),
      List.append_nil]
  have hr1 : (a ++ '.' :: (b ++ u :: rest)).dropWhile isDig
      = '.' :: (b ++ u :: rest) := by
    rw [dropWhile_append_all _ ha, dropWhile_cons_false _ (by decide)]
  have hfds : (b ++ u :: rest).takeWhile isDig = b := by
    rw [takeWhile_append_all _ hb, takeWhile_cons_false _ hu1, List.append_nil]
  have hfr3 : (b ++ u :: rest).dropWhile isDig = u :: rest := by
    rw [dropWhile_append_all _ hb, dropWhile_cons_false _ hu1]
  obtain ⟨c0, l0, hdata⟩ : ∃ c0 l0, a ++ '.' :: (b ++ u :: rest) = c0 :: l0 := by
    cases a with
    | nil => exact ⟨_, _, rfl⟩
    | cons x xs => exact ⟨_, _, rfl⟩
  rw [hdata]
  simp only [parseLoop]
  rw [← hdata]
  simp only [hds, hr1, List.head?_cons, List.tail_cons]
  have hcond : (some '.' = some ('.' : Char)) = True := by simp
  simp only [hcond, if_true, hfds, hfr3]
  rw [if_neg (by simp)]
  rw [if_neg (by omega)]
  have hus : (u :: rest).takeWhile isUnitChar = u :: rest.takeWhile isUnitChar := by
    simp [List.takeWhile_cons, hu3]
  rw [hus]
  cases ht : rest.takeWhile isUnitChar with
  | nil =>
    simp only [hu4]
    rw [if_neg hv]
    rfl
  | cons c2 ts =>
    rw [unitMap_long (by simp)]
    rfl

/-- A fractional component attached to a non-second unit makes the parse loop
fail no matter where it sits in the input: the violating dot either survives
an earlier iteration intact, or is consumed by an iteration that errs. -/
theorem parseLoop_frac_any (orig b rest : List Char) (u : Char) (v : Int)
    (hb : ∀ c ∈ b, isDig c = true) (hu4 : unitMap [u] = some v)
    (hv : v ≠ Second) :
    ∀ (fuel : Nat) (pre : List Char) (res : Int), pre.length < fuel →
      (parseLoop orig fuel (pre ++ '.' :: (b ++ u :: rest)) res).isErr
        = true := by
  obtain ⟨hu1, hudot, hu3⟩ := unitMap_char_not_dig hu4
  intro fuel
  induction fuel with
  | zero => intro pre res h; omega
  | succ f ih =>
    intro pre res hlen
    cases hrp : pre.dropWhile isDig with
    | nil =>
      have hall : ∀ c ∈ pre, isDig c = true := fun c hc =>
        List.dropWhile_eq_nil_iff.mp hrp c hc
      exact parseLoop_frac_step orig f pre b rest u res hall hb hu1 hu3 v hu4 hv
    | cons x xs =>
      have hx : isDig x = false := dropWhile_head_false hrp
      obtain ⟨hds, hr1⟩ := takeWhile_append_stop ('.' :: (b ++ u :: rest)) hrp
      have hl1 := length_takeWhile_add_dropWhile isDig pre
      rw [hrp] at hl1
      simp only [List.length_cons] at hl1
      obtain ⟨c0, l0, hdata⟩ :
          ∃ c0 l0, pre ++ '.' :: (b ++ u :: rest) = c0 :: l0 := by
        cases pre with
        | nil => exact ⟨_, _, rfl⟩
        | cons p ps => exact ⟨_, _, rfl⟩
      rw [hdata]
      simp only [parseLoop]
      rw [← hdata]
      simp only [hds, hr1, List.head?_cons, List.tail_cons]
      by_cases hxdot : x = '.'
      · subst hxdot
        have hcond : (some '.' = some ('.' : Char)) = True := by simp
        simp only [hcond, if_true]
        cases hxs : xs.dropWhile isDig with
        | nil =>
          have hallxs : ∀ c ∈ xs, isDig c = true := fun c hc =>
            List.dropWhile_eq_nil_iff.mp hxs c hc
          have hfds : (xs ++ '.' :: (b ++ u :: rest)).takeWhile isDig = xs := by
            rw [takeWhile_append_all _ hallxs, takeWhile_cons_false _ (by decide),
              List.append_nil]
          have hfr : (xs ++ '.' :: (b ++ u :: rest)).dropWhile isDig
              = '.' :: (b ++ u :: rest) := by
            rw [dropWhile_append_all _ hallxs, dropWhile_cons_false _ (by decide)]
          simp only [hfds, hfr]
          rw [if_neg (by simp)]
          rw [if_neg (by omega)]
          rw [takeWhile_cons_false _ (show isUnitChar '.' = false by decide)]
          simp only [unitMap_nil]
          rfl
        | cons y ys =>
          have hy : isDig y = false := dropWhile_head_false hxs
          obtain ⟨hfds, hfr⟩ := takeWhile_append_stop ('.' :: (b ++ u :: rest)) hxs
          have hl2 := length_takeWhile_add_dropWhile isDig xs
          rw [hxs] at hl2
          simp only [List.length_cons] at hl2
          simp only [hfds, hfr]
          rw [if_neg (by simp)]
          rw [if_neg (by omega)]
          by_cases hyu : isUnitChar y = true
          · have hustep :
                (y :: (ys ++ '.' :: (b ++ u :: rest))).takeWhile isUnitChar
                  = y :: (ys ++ '.' :: (b ++ u :: rest)).takeWhile isUnitChar := by
              simp [List.takeWhile_cons, hyu]
            have hdstep :
                (y :: (ys ++ '.' :: (b ++ u :: rest))).dropWhile isUnitChar
                  = (ys ++ '.' :: (b ++ u :: rest)).dropWhile isUnitChar := by
              simp [List.dropWhile_cons, hyu]
            rw [hustep, hdstep]
            cases hT : (ys ++ '.' :: (b ++ u :: rest)).takeWhile isUnitChar with
            | nil =>
              have hdw := dropWhile_of_takeWhile_nil hT
              rw [hdw]
              rcases Option.eq_none_or_eq_some (unitMap [y]) with hmap | ⟨dv, hmap⟩
              · simp only [hmap]
                rfl
              · by_cases hdv : dv = Second
                · simp only [hmap, if_pos hdv]
                  exact ih ys _ (by omega)
                · simp only [hmap, if_neg hdv]
                  rfl
            | cons c2 ts =>
              rw [unitMap_long (by simp)]
              rfl
          · have hyu2 : isUnitChar y = false := by simpa using hyu
            rw [takeWhile_cons_false _ hyu2]
            simp only [unitMap_nil]
            rfl
      · have hcond : (some x = some ('.' : Char)) = False := by simp [hxdot]
        simp only [hcond, if_false]
        rw [if_neg (by simp)]
        cases hdp : pre.takeWhile isDig with
        | nil =>
          rw [if_pos (by simp)]
          rfl
        | cons d ds2 =>
          rw [hdp] at hl1
          simp only [List.length_cons] at hl1
          rw [if_neg (by simp)]
          by_cases hxu : isUnitChar x = true
          · have hustep :
                (x :: (xs ++ '.' :: (b ++ u :: rest))).takeWhile isUnitChar
                  = x :: (xs ++ '.' :: (b ++ u :: rest)).takeWhile isUnitChar := by
              simp [List.takeWhile_cons, hxu]
            have hdstep :
                (x :: (xs ++ '.' :: (b ++ u :: rest))).dropWhile isUnitChar
                  = (xs ++ '.' :: (b ++ u :: rest)).dropWhile isUnitChar := by
              simp [List.dropWhile_cons, hxu]
            rw [hustep, hdstep]
            cases hT : (xs ++ '.' :: (b ++ u :: rest)).takeWhile isUnitChar with
            | nil =>
              have hdw := dropWhile_of_takeWhile_nil hT
              rw [hdw]
              rcases Option.eq_none_or_eq_some (unitMap [x]) with hmap | ⟨dv, hmap⟩
              · simp only [hmap]
                rfl
              · by_cases hdv : dv = Second
                · simp only [hmap, if_pos hdv]
                  exact ih xs _ (by omega)
                · simp only [hmap, if_neg hdv]
                  exact ih xs _ (by omega)
            | cons c2 ts =>
              rw [unitMap_long (by simp)]
              rfl
          · have hxu2 : isUnitChar x = false := by simpa using hxu
            rw [takeWhile_cons_false _ hxu2]
            simp only [unitMap_nil]
            rfl


theorem isUnitChar_ne_dot {c : Char} (h : isUnitChar c = true) : c ≠ '.' := by
  simp only [isUnitChar, Bool.and_eq_true, decide_eq_true_eq] at h
  exact h.1

theorem dotSChain_two (c1 c2 : Char) (rest : List Char) :
    dotSChain (c1 :: c2 :: rest) = ((c1 == '.') && (c2 == 's') && dotSChain rest) := rfl

theorem dotSChain_one (c : Char) : dotSChain [c] = false := rfl

theorem parseLoop_nodigits (orig : List Char) : ∀ (fuel : Nat) (interior : List Char)
    (res : Int), interior.length ≤ fuel →
    (∀ c ∈ interior, isDig c = false) →
    (dotSChain interior = true → parseLoop orig fuel interior res = .ok res) ∧
    (dotSChain interior = false → (parseLoop orig fuel interior res).isErr = true) := by
  intro fuel
  induction fuel with
  | zero =>
    intro interior res hlen hdig
    cases interior with
    | nil =>
      exact ⟨fun _ => parseLoop_nil orig 0 res, fun hch => by simp [dotSChain] at hch⟩
    | cons c cs => simp at hlen
  | succ f ih =>
    intro interior res hlen hdig
    cases interior with
    | nil =>
      exact ⟨fun _ => parseLoop_nil orig (f + 1) res, fun hch => by simp [dotSChain] at hch⟩
    | cons c cs =>
      have hcnd : isDig c = false := hdig c (by simp)
      have hds : (c :: cs).takeWhile isDig = [] := takeWhile_cons_false _ hcnd
      have hr1 : (c :: cs).dropWhile isDig = c :: cs := dropWhile_cons_false _ hcnd
      by_cases hc : c = '.'
      case neg =>
        refine ⟨fun hch => absurd hch ?_, fun _ => ?_⟩
        · cases cs with
          | nil => simp [dotSChain]
          | cons c2 cs2 => simp [dotSChain_two, hc]
        · simp only [parseLoop, hds, hr1]
          rw [if_neg (show ¬((c :: cs).head? = some '.') from by simp [hc])]
          rw [if_neg (by simp)]
          rw [if_pos (by simp)]
          rfl
      case pos =>
        subst hc
        have hfds : cs.takeWhile isDig = [] := by
          cases cs with
          | nil => rfl
          | cons x xs => exact takeWhile_cons_false _ (hdig x (by simp))
        have hfr3 : cs.dropWhile isDig = cs := dropWhile_of_takeWhile_nil hfds
        cases cs with
        | nil =>
          refine ⟨fun hch => by simp [dotSChain] at hch, fun _ => rfl⟩
        | cons c2 cs2 =>
          have hc2nd : isDig c2 = false := hdig c2 (by simp)
          have hcommon : parseLoop orig (f + 1) ('.' :: c2 :: cs2) res =
              (if (c2 :: cs2).isEmpty = true then
                GoResult.err ("missing unit in duration " ++ String.mk orig)
              else if (0 : Nat) + 1 + 0 = 0 then
                GoResult.err ("invalid duration " ++ String.mk orig)
              else
                match unitMap ((c2 :: cs2).takeWhile isUnitChar) with
                | none => GoResult.err ("invalid unit in duration " ++ String.mk orig)
                | some dv =>
                  if dv = Second then
                    parseLoop orig f ((c2 :: cs2).dropWhile isUnitChar)
                      (res + ((0 : Nat) : Int) * (if true then 1 else dv))
                  else
                    GoResult.err ("invalid fraction in duration " ++ String.mk orig)) := by
            simp only [parseLoop, hds, hr1, List.head?_cons, List.tail_cons]
            have hcond : (some '.' = some ('.' : Char)) = True := by simp
            simp only [hcond, if_true, hfds, hfr3]
            rfl
          rw [hcommon]
          rw [if_neg (by simp), if_neg (by simp)]
          by_cases hc2 : c2 = 's'
          · subst hc2
            have hustep : ('s' :: cs2).takeWhile isUnitChar =
                's' :: cs2.takeWhile isUnitChar := by
              rw [List.takeWhile_cons, if_pos (show isUnitChar 's' = true from rfl)]
            have hdstep : ('s' :: cs2).dropWhile isUnitChar =
                cs2.dropWhile isUnitChar := by
              rw [List.dropWhile_cons, if_pos (show isUnitChar 's' = true from rfl)]
            rw [hustep, hdstep]
            cases ht : cs2.takeWhile isUnitChar with
            | nil =>
              have hdw : cs2.dropWhile isUnitChar = cs2 := dropWhile_of_takeWhile_nil ht
              rw [hdw]
              simp only [show unitMap ['s'] = some Second from rfl, eq_self_iff_true,
                if_true, Nat.cast_zero, zero_mul, add_zero]
              obtain ⟨ihA, ihB⟩ := ih cs2 res (by simp at hlen ⊢; omega)
                (fun x hx => hdig x (by simp [hx]))
              constructor
              · intro hch
                have hch2 : dotSChain cs2 = true := by
                  rw [dotSChain_two] at hch
                  simpa using hch
                exact ihA hch2
              · intro hch
                have hch2 : dotSChain cs2 = false := by
                  rw [dotSChain_two] at hch
                  simpa using hch
                exact ihB hch2
            | cons c3 ts =>
              obtain ⟨cs2', hcs2⟩ : ∃ t, cs2 = c3 :: t := by
                cases cs2 with
                | nil => exact absurd ht (by simp)
                | cons x xs =>
                  by_cases hx : isUnitChar x = true
                  · rw [List.takeWhile_cons, if_pos hx] at ht
                    injection ht with ht1 _
                    exact ⟨xs, by rw [ht1]⟩
                  · rw [takeWhile_cons_false _ (by simpa using hx)] at ht
                    cases ht
              have hc3u : isUnitChar c3 = true := by
                rw [hcs2] at ht
                by_cases hx : isUnitChar c3 = true
                · exact hx
                · rw [takeWhile_cons_false _ (by simpa using hx)] at ht
                  cases ht
              have hchainF : dotSChain ('.' :: 's' :: cs2) = false := by
                rw [hcs2, dotSChain_two]
                cases cs2' with
                | nil => simp [dotSChain_one]
                | cons c4 cs4 =>
                  rw [dotSChain_two]
                  have : (c3 == '.') = false := by
                    simp [isUnitChar_ne_dot hc3u]
                  simp [this]
              refine ⟨fun hch => absurd hch (by rw [hchainF]; simp), fun _ => ?_⟩
              simp only [unitMap_long (show 2 ≤ ('s' :: c3 :: ts).length from by simp)]
              rfl
          · -- c2 is not 's'
            have hchainF : dotSChain ('.' :: c2 :: cs2) = false := by
              rw [dotSChain_two]
              simp [hc2]
            refine ⟨fun hch => absurd hch (by rw [hchainF]; simp), fun _ => ?_⟩
            by_cases hc2u : isUnitChar c2 = true
            · have hustep : (c2 :: cs2).takeWhile isUnitChar =
                  c2 :: cs2.takeWhile isUnitChar := by
                simp [List.takeWhile_cons, hc2u]
              rw [hustep]
              cases ht : cs2.takeWhile isUnitChar with
              | nil =>
                rcases Option.eq_none_or_eq_some (unitMap [c2]) with hmap | ⟨v, hmap⟩
                · simp only [hmap]
                  rfl
                · have hvne : v ≠ Second := by
                    rcases unitMap_cases hmap with ⟨he, hv⟩ | ⟨he, hv⟩ | ⟨he, hv⟩ |
                      ⟨he, hv⟩ | ⟨he, hv⟩ | ⟨he, hv⟩
                    · rw [hv]; decide
                    · rw [hv]; decide
                    · rw [hv]; decide
                    · rw [hv]; decide
                    · rw [hv]; decide
                    · injection he with he1 _
                      exact absurd he1 hc2
                  simp only [hmap, if_neg hvne]
                  rfl
              | cons c3 ts =>
                simp only [unitMap_long (show 2 ≤ (c2 :: c3 :: ts).length from by simp)]
                rfl
            · -- c2 is neither a digit nor a unit char nor 's': it must be '.'
              have hustep : (c2 :: cs2).takeWhile isUnitChar = [] :=
                takeWhile_cons_false _ (by simpa using hc2u)
              rw [hustep, show unitMap [] = none from rfl]
              rfl

/-- C1 witness: the round-trip theorem applied at 1000123000 ns. -/
theorem C1_duration_roundtrip_witness :
    (0 : Int) ≤ 1000123000 ∧ (1000123000 : Int) < 2 ^ 63 ∧
      UnmarshalJSON (MarshalJSON 1000123000) = .ok 1000123000 :=
  ⟨by decide, by decide, C1_duration_roundtrip 1000123000 (by decide) (by decide)⟩

/-- C3: the parser rejects the unquoted input 0s, the quoted inputs "0"
(digits but no unit), "s" (unit but no digits), "1y" (wrong-case unit) and
"abc" (no digits), and every quoted input that attaches a fractional part to
a unit other than seconds, wherever that component sits in the input. -/
theorem C3_parse_rejections :
    (UnmarshalJSON "0s".toList).isErr = true ∧
    (UnmarshalJSON "\"0\"".toList).isErr = true ∧
    (UnmarshalJSON "\"s\"".toList).isErr = true ∧
    (UnmarshalJSON "\"1y\"".toList).isErr = true ∧
    (UnmarshalJSON "\"abc\"".toList).isErr = true ∧
    (∀ (pre b rest : List Char) (u : Char) (v : Int),
      (∀ c ∈ b, isDig c = true) → unitMap [u] = some v → v ≠ Second →
      (UnmarshalJSON ('"' :: ((pre ++ '.' :: (b ++ u :: rest)) ++ ['"']))).isErr
        = true) := by
  refine ⟨by decide, by decide, by decide, by decide, by decide, ?_⟩
  intro pre b rest u v hb hu4 hv
  rw [unmarshal_quoted]
  exact parseLoop_frac_any (pre ++ '.' :: (b ++ u :: rest)) b rest u v hb hu4 hv
    ((pre ++ '.' :: (b ++ u :: rest)).length + 1) pre 0
    (by simp only [List.length_append, List.length_cons]; omega)

/-- C3 witness: the fractional-on-hours violation after a valid minutes
component, at "1m2.5h". -/
theorem C3_parse_rejections_witness :
    (UnmarshalJSON
      ('"' :: ((['1', 'm', '2'] ++ '.' :: (['5'] ++ 'h' :: [])) ++ ['"']))).isErr
        = true :=
  C3_parse_rejections.2.2.2.2.2 ['1', 'm', '2'] ['5'] [] 'h' Hour
    (by decide) (by decide) (by decide)

/-- C4 counterexample: the two-quote input parses successfully to 0, and so
does the digit-free quoted input ".s". -/
theorem C4_unmarshal_counterexample :
    UnmarshalJSON ['"', '"'] = .ok 0 ∧
    UnmarshalJSON "\".s\"".toList = .ok 0 := by
  decide

/-- C4 (amended): the empty input and the lone-quote input panic; a nonempty
input not starting with a quote is rejected, as is a quote-led input whose
last character is not a quote; the two-quote input parses to 0; and a quoted
digit-free interior parses to 0 exactly when it is a chain of ".s" pairs
(possibly empty) and is rejected otherwise. -/
theorem C4_unmarshal :
    UnmarshalJSON [] = .panics ∧
    UnmarshalJSON ['"'] = .panics ∧
    (∀ (c : Char) (rest : List Char), c ≠ '"' →
      (UnmarshalJSON (c :: rest)).isErr = true) ∧
    (∀ rest : List Char, ('"' :: rest).getLastD ' ' ≠ '"' →
      (UnmarshalJSON ('"' :: rest)).isErr = true) ∧
    UnmarshalJSON ['"', '"'] = .ok 0 ∧
    (∀ interior : List Char, (∀ ch ∈ interior, isDig ch = false) →
      (dotSChain interior = true →
        UnmarshalJSON ('"' :: (interior ++ ['"'])) = .ok 0) ∧
      (dotSChain interior = false →
        (UnmarshalJSON ('"' :: (interior ++ ['"']))).isErr = true)) := by
  refine ⟨by decide, by decide, ?_, ?_, by decide, ?_⟩
  · intro c rest hc
    simp only [UnmarshalJSON]
    rw [if_pos (Or.inl hc)]
    rfl
  · intro rest hlast
    simp only [UnmarshalJSON]
    rw [if_pos (Or.inr hlast)]
    rfl
  · intro interior hdig
    rw [unmarshal_quoted]
    exact parseLoop_nodigits interior (interior.length + 1) interior 0
      (by omega) hdig

/-- C4 witness: the amended theorem applied at the unquoted input "x", the
unterminated digit-free input of a quote followed by "s", and the quoted
digit-free input "a". -/
theorem C4_unmarshal_witness :
    (UnmarshalJSON ['x']).isErr = true ∧
    (UnmarshalJSON ['"', 's']).isErr = true ∧
    (UnmarshalJSON ['"', 'a', '"']).isErr = true :=
  ⟨C4_unmarshal.2.2.1 'x' [] (by decide),
   C4_unmarshal.2.2.2.1 ['s'] (by decide),
   (C4_unmarshal.2.2.2.2.2 ['a'] (by decide)).2 (by decide)⟩

end SysDBGo

